import Mathlib

/-!
Verification development for the aquatrack water-quality dashboard.

This file gives a shallow embedding of the repository's algorithmic core —
the statistics service (Mann-Kendall trend test, Pettitt change-point test,
Shewhart control limits, EWMA smoothing) and the per-period clustering and
volatility-ranking routines embedded in the main application component —
and proves the specified properties about it.

Modelling conventions:
* JavaScript `number` values are modelled as `ℚ` where the code only adds,
  subtracts, multiplies and compares, and as `ℝ` where the code calls
  `Math.sqrt` (control limits, clustering distances, volatility steps).
* Imperative accumulation loops become folds or structural recursions over
  lists; `for` loops over index ranges become `Finset` sums or `List.range'`
  folds over the same index ranges.
* `null`/missing values are modelled with `Option`.
-/

namespace AquaTrack

/-- Trend verdict of the Mann-Kendall test.  The source returns one of three
distinct strings (`'صعودی (Increasing)'`, `'نزولی (Decreasing)'`,
`'بدون روند (Stable)'`); we model the three return values as an inductive type. -/
inductive Trend where
  | increasing
  | decreasing
  | stable
  deriving DecidableEq, Repr

/-- Mann-Kendall statistic `s`: the double loop in `calculateMannKendall`
accumulates, over all index pairs `i < j`, `+1` when `data[j] > data[i]` and
`-1` when `data[j] < data[i]` (two independent `if` statements, so an equal
pair contributes `0`). -/
def mkS (data : List ℚ) : ℤ :=
  ∑ i in Finset.range data.length, ∑ j in Finset.Ico (i + 1) data.length,
    ((if data.getD j 0 > data.getD i 0 then (1 : ℤ) else 0) +
     (if data.getD j 0 < data.getD i 0 then (-1 : ℤ) else 0))

/-- Embedding of `calculateMannKendall` from the statistics service: computes
the pairwise statistic and returns the three-way verdict. -/
def calculateMannKendall (data : List ℚ) : Trend :=
  if mkS data > 0 then .increasing
  else if mkS data < 0 then .decreasing
  else .stable

/-- Pettitt `U(t)` statistic: the inner double loop of
`findPettittChangePoint` accumulates, for `i < t ≤ j < n`, the sign of
`data[i] - data[j]` (the ternary chain `diff > 0 ? 1 : diff < 0 ? -1 : 0`). -/
def uStat (data : List ℚ) (t : ℕ) : ℤ :=
  ∑ i in Finset.range t, ∑ j in Finset.Ico t data.length,
    (if data.getD i 0 - data.getD j 0 > 0 then (1 : ℤ)
     else if data.getD i 0 - data.getD j 0 < 0 then -1 else 0)

/-- One iteration of the `for (let t = 1; t < n; t++)` loop body of
`findPettittChangePoint`: the accumulator carries `(maxU, changePointIdx)`,
initialised to `(0, -1)`, and is replaced exactly when `|U(t)|` strictly
exceeds the running maximum. -/
def pettittStep (data : List ℚ) (acc : ℤ × ℤ) (t : ℕ) : ℤ × ℤ :=
  if |uStat data t| > acc.1 then (|uStat data t|, (t : ℤ)) else acc

/-- Embedding of `findPettittChangePoint`: `null` becomes `none`; for `n ≥ 4`
the loop over `t ∈ [1, n)` is a fold of `pettittStep` over `range' 1 (n-1)`,
and the final `dates[changePointIdx]` lookup is `List.getD` (the index is in
range whenever `dates` parallels `data`, as in every call site). -/
def findPettittChangePoint (data : List ℚ) (dates : List String) : Option String :=
  if data.length < 4 then none
  else
    let r := (List.range' 1 (data.length - 1)).foldl (pettittStep data) (0, -1)
    if r.2 ≠ -1 then some (dates.getD r.2.toNat "") else none

/-- Result record of `calculateControlLimits`. -/
structure ControlLimits where
  mean : ℝ
  ucl : ℝ
  lcl : ℝ

/-- Embedding of `calculateControlLimits` (Shewhart limits): the `reduce`
calls become left folds, `Math.pow(x - mean, 2)` becomes `(x - mean) ^ 2`,
and `Math.sqrt` becomes `Real.sqrt`. -/
noncomputable def calculateControlLimits (data : List ℝ) : ControlLimits :=
  if data.length = 0 then ⟨0, 0, 0⟩
  else
    let mean := data.foldl (· + ·) 0 / (data.length : ℝ)
    let stdDev :=
      Real.sqrt ((data.map fun x => (x - mean) ^ 2).foldl (· + ·) 0 / (data.length : ℝ))
    ⟨mean, mean + 3 * stdDev, max 0 (mean - 3 * stdDev)⟩

/-- Tail of the `calculateEWMA` loop: given the previous output value, each
input `x` produces `lambda * x + (1 - lambda) * prev`, which becomes the new
previous value. -/
def ewmaAux (lambda prev : ℚ) : List ℚ → List ℚ
  | [] => []
  | x :: xs => (lambda * x + (1 - lambda) * prev) :: ewmaAux lambda (lambda * x + (1 - lambda) * prev) xs

/-- Embedding of `calculateEWMA`: the empty input yields `[]`, otherwise the
output is seeded with `data[0]` and the loop appends the smoothed values.
The source declares a default smoothing factor of `0.3`; we pass `lambda`
explicitly. -/
def calculateEWMA (data : List ℚ) (lambda : ℚ) : List ℚ :=
  match data with
  | [] => []
  | x :: xs => x :: ewmaAux lambda x xs

/-- Embedding of the `WaterSample` interface from `types.ts`: measured fields
plus the optional derived fields.  Clustering only ever rewrites `cluster`. -/
structure WaterSample where
  id : String
  conductivity : ℝ
  nitrate : ℝ
  timestamp : String
  location : Option String
  cluster : Option String
  clusterColor : Option String

/-- Centroid in conductivity × nitrate space (`{ ec, no3 }` in the source). -/
structure Centroid where
  ec : ℝ
  no3 : ℝ

/-- Algorithm choice for `clusterDataPerPeriod` (`'simple' | 'kmeans'`). -/
inductive ClusterAlgo where
  | simple
  | kmeans

/-- Maximum of a list of reals, as `Math.max(...xs)` computes it for a
nonempty spread (the degenerate empty case, `-Infinity` in JavaScript, is
never reached on the code paths we verify: they require at least one sample). -/
def listMax : List ℝ → ℝ
  | [] => 0
  | x :: xs => xs.foldl max x

/-- Euclidean distance in conductivity × nitrate space, exactly as computed
at both distance call sites of `clusterDataPerPeriod`:
`Math.sqrt(Math.pow(s.conductivity - c.ec, 2) + Math.pow(s.nitrate - c.no3, 2))`. -/
noncomputable def sampleDist (s : WaterSample) (c : Centroid) : ℝ :=
  Real.sqrt ((s.conductivity - c.ec) ^ 2 + (s.nitrate - c.no3) ^ 2)

/-- Tail of the nearest-centroid scan: the source iterates over the centroid
array with `minDist` and `clusterIdx` accumulators, replacing them exactly
when a strictly smaller distance is found (`d < minDist`). -/
noncomputable def nearestAux (s : WaterSample) : List Centroid → ℝ → ℕ → ℕ → ℕ
  | [], _, _, best => best
  | c :: cs, m, cur, best =>
      if sampleDist s c < m then nearestAux s cs (sampleDist s c) (cur + 1) cur
      else nearestAux s cs m (cur + 1) best

/-- Index of the nearest centroid.  The source starts with
`minDist = Infinity, clusterIdx = 0`; every real distance is strictly below
`Infinity`, so the first centroid always becomes the initial best and the
scan over the remaining centroids proceeds with strict improvement.  An empty
centroid list leaves `clusterIdx = 0`, as in the source. -/
noncomputable def nearestIdx (s : WaterSample) (cs : List Centroid) : ℕ :=
  match cs with
  | [] => 0
  | c :: rest => nearestAux s rest (sampleDist s c) 1 0

/-- Centroids of the `'simple'` (uniform-range) algorithm: `count` centroids
linearly interpolated between `0` and the per-period maxima
(`(i / (count - 1)) * maxEC`, likewise for nitrate).  The subtraction
`count - 1` happens on JavaScript numbers, so it is taken in `ℝ`. -/
noncomputable def simpleCentroids (samples : List WaterSample) (count : ℕ) : List Centroid :=
  (List.range count).map fun (i : ℕ) =>
    ⟨((i : ℝ) / ((count : ℝ) - 1)) * listMax (samples.map fun s => s.conductivity),
     ((i : ℝ) / ((count : ℝ) - 1)) * listMax (samples.map fun s => s.nitrate)⟩

/-- One k-means iteration: samples are grouped by nearest current centroid
(`groups[clusterIdx].push(s)` in input order becomes an order-preserving
`filter`), then each centroid is replaced by its group's mean, empty groups
retaining the previous centroid. -/
noncomputable def kmeansStep (samples : List WaterSample) (cs : List Centroid) : List Centroid :=
  (List.range cs.length).map fun idx =>
    let group := samples.filter fun s => nearestIdx s cs == idx
    if group.length = 0 then cs.getD idx ⟨0, 0⟩
    else
      ⟨(group.map fun s => s.conductivity).foldl (· + ·) 0 / (group.length : ℝ),
       (group.map fun s => s.nitrate).foldl (· + ·) 0 / (group.length : ℝ)⟩

/-- Centroids of the `'kmeans'` algorithm: seeded from the first `count`
samples' raw values (`samples.slice(0, count)`), then exactly 10 fixed
iterations of `kmeansStep`. -/
noncomputable def kmeansCentroids (samples : List WaterSample) (count : ℕ) : List Centroid :=
  (kmeansStep samples)^[10] ((samples.take count).map fun s => ⟨s.conductivity, s.nitrate⟩)

/-- Unsorted centroids produced by the chosen algorithm. -/
noncomputable def baseCentroids (samples : List WaterSample) (count : ℕ) :
    ClusterAlgo → List Centroid
  | .simple => simpleCentroids samples count
  | .kmeans => kmeansCentroids samples count

/-- Sort key of the final `centroids.sort((a, b) => (a.ec + a.no3) - (b.ec + b.no3))`. -/
def centroidKey (c : Centroid) : ℝ := c.ec + c.no3

/-- Ascending sort of the centroids by `centroidKey`.  JavaScript's
`Array.prototype.sort` with this comparator produces a list sorted ascending
by the key; we model it with the stable `List.insertionSort`. -/
noncomputable def sortCentroids (cs : List Centroid) : List Centroid :=
  cs.insertionSort fun a b => centroidKey a ≤ centroidKey b

/-- Embedding of `clusterDataPerPeriod`.  The label palette
(`currentClusterLabels`, captured from component state in the source) is
passed explicitly; `currentClusterLabels[idx]` becomes `labels.getD idx ""`.
With fewer samples than clusters every sample receives label `0`; otherwise
centroids are computed, sorted, and every sample is relabelled by its nearest
sorted centroid. -/
noncomputable def clusterDataPerPeriod (samples : List WaterSample) (count : ℕ)
    (algo : ClusterAlgo) (labels : List String) : List WaterSample :=
  if samples.length < count then
    samples.map fun s => { s with cluster := some (labels.getD 0 "") }
  else
    let sorted := sortCentroids (baseCentroids samples count algo)
    samples.map fun s => { s with cluster := some (labels.getD (nearestIdx s sorted) "") }

/-- One entry of a station's history in `volatilityRanking`
(`{ ec, no3, cluster: s.cluster || '' }`). -/
structure HistEntry where
  ec : ℝ
  no3 : ℝ
  cluster : String

/-- One normalised Euclidean step of `volatilityRanking`:
`Math.sqrt(dEC * dEC + dNO3 * dNO3)` with
`dEC = Math.abs(Δec) / (meanEC || 1)` — the `|| 1` fallback fires when the
global mean is `0`. -/
noncomputable def volStep (meanEC meanNO3 : ℝ) (a b : HistEntry) : ℝ :=
  Real.sqrt ((|b.ec - a.ec| / (if meanEC = 0 then 1 else meanEC)) ^ 2 +
             (|b.no3 - a.no3| / (if meanNO3 = 0 then 1 else meanNO3)) ^ 2)

/-- Accumulated `totalChange` of the `for (let i = 1; ...)` loop: the sum of
`volStep` over consecutive history entries. -/
noncomputable def totalChange (meanEC meanNO3 : ℝ) : List HistEntry → ℝ
  | [] => 0
  | [_] => 0
  | a :: b :: rest => volStep meanEC meanNO3 a b + totalChange meanEC meanNO3 (b :: rest)

/-- Accumulated `clusterJumps`: the number of consecutive history entries
whose cluster labels differ. -/
def clusterJumps : List HistEntry → ℕ
  | [] => 0
  | [_] => 0
  | a :: b :: rest => (if a.cluster = b.cluster then 0 else 1) + clusterJumps (b :: rest)

/-- Per-station volatility score of `volatilityRanking`:
`avgChange + clusterJumps * 0.2`, where `avgChange` is
`totalChange / (history.length - 1)` when the history has more than one
entry and `0` otherwise. -/
noncomputable def stationScore (meanEC meanNO3 : ℝ) (history : List HistEntry) : ℝ :=
  (if 1 < history.length then totalChange meanEC meanNO3 history / ((history.length : ℝ) - 1)
   else 0) + (clusterJumps history : ℝ) * 0.2

/-! ### Helper lemmas -/

/-- With `lambda = 1` each loop step of `calculateEWMA` reproduces the current
input value, so the tail of the output equals the tail of the input. -/
lemma ewmaAux_one (prev : ℚ) (xs : List ℚ) : ewmaAux 1 prev xs = xs := by
  induction xs generalizing prev with
  | nil => rfl
  | cons x xs ih => simp [ewmaAux, ih]

/-- The EWMA loop produces one output element per input element. -/
lemma ewmaAux_length (lambda prev : ℚ) (xs : List ℚ) :
    (ewmaAux lambda prev xs).length = xs.length := by
  induction xs generalizing prev with
  | nil => rfl
  | cons x xs ih => simp [ewmaAux, ih]

/-- Recurrence satisfied by the EWMA loop tail: each output element combines
the current input with the previous output (the seed `prev` at position 0). -/
lemma ewmaAux_getD (lambda : ℚ) (xs : List ℚ) :
    ∀ (prev : ℚ) (i : ℕ), i < xs.length →
      (ewmaAux lambda prev xs).getD i 0 =
        lambda * xs.getD i 0 +
          (1 - lambda) * (if i = 0 then prev else (ewmaAux lambda prev xs).getD (i - 1) 0) := by
  induction xs with
  | nil => intro prev i h; simp at h
  | cons y ys ih =>
      intro prev i h
      cases i with
      | zero => simp [ewmaAux]
      | succ k =>
          have hk : k < ys.length := by simpa using h
          simp only [ewmaAux, List.getD_cons_succ]
          rw [ih _ k hk]
          cases k with
          | zero => simp
          | succ k2 => simp [ewmaAux, List.getD_cons_succ]

/-- On a strictly increasing list every pairwise comparison of the
Mann-Kendall loop contributes `+1`, so the statistic is positive once there
is at least one pair. -/
lemma mkS_pos_of_sorted (data : List ℚ) (h2 : 2 ≤ data.length)
    (hs : data.Pairwise (· < ·)) : 0 < mkS data := by
  have hterm : ∀ i, i < data.length → ∀ j, i + 1 ≤ j → j < data.length →
      ((if data.getD j 0 > data.getD i 0 then (1 : ℤ) else 0) +
       (if data.getD j 0 < data.getD i 0 then (-1 : ℤ) else 0)) = 1 := by
    intro i hi j hj1 hj2
    have hij : data.getD i 0 < data.getD j 0 := by
      rw [List.getD_eq_getElem data 0 hi, List.getD_eq_getElem data 0 hj2]
      exact List.pairwise_iff_getElem.mp hs i j hi hj2 (by omega)
    rw [if_pos hij, if_neg (not_lt.mpr hij.le)]
    norm_num
  unfold mkS
  apply Finset.sum_pos'
  · intro i hi
    apply Finset.sum_nonneg
    intro j hj
    rw [Finset.mem_range] at hi
    rw [Finset.mem_Ico] at hj
    rw [hterm i hi j hj.1 hj.2]
    norm_num
  · refine ⟨0, Finset.mem_range.mpr (by omega), ?_⟩
    have hone : ∀ j ∈ Finset.Ico (0 + 1) data.length,
        ((if data.getD j 0 > data.getD 0 0 then (1 : ℤ) else 0) +
         (if data.getD j 0 < data.getD 0 0 then (-1 : ℤ) else 0)) = 1 := by
      intro j hj
      rw [Finset.mem_Ico] at hj
      exact hterm 0 (by omega) j hj.1 hj.2
    rw [Finset.sum_congr rfl hone]
    simp only [Finset.sum_const, Nat.card_Ico, nsmul_eq_mul, mul_one]
    omega

/-- On a strictly decreasing list every pairwise comparison of the
Mann-Kendall loop contributes `-1`, so the statistic is negative once there
is at least one pair. -/
lemma mkS_neg_of_sorted (data : List ℚ) (h2 : 2 ≤ data.length)
    (hs : data.Pairwise (· > ·)) : mkS data < 0 := by
  have hterm : ∀ i, i < data.length → ∀ j, i + 1 ≤ j → j < data.length →
      ((if data.getD j 0 > data.getD i 0 then (1 : ℤ) else 0) +
       (if data.getD j 0 < data.getD i 0 then (-1 : ℤ) else 0)) = -1 := by
    intro i hi j hj1 hj2
    have hij : data.getD j 0 < data.getD i 0 := by
      rw [List.getD_eq_getElem data 0 hi, List.getD_eq_getElem data 0 hj2]
      exact List.pairwise_iff_getElem.mp hs i j hi hj2 (by omega)
    rw [if_neg (not_lt.mpr hij.le), if_pos hij]
    norm_num
  have hpos : 0 < -mkS data := by
    unfold mkS
    rw [← Finset.sum_neg_distrib]
    apply Finset.sum_pos'
    · intro i hi
      rw [← Finset.sum_neg_distrib]
      apply Finset.sum_nonneg
      intro j hj
      rw [Finset.mem_range] at hi
      rw [Finset.mem_Ico] at hj
      rw [hterm i hi j hj.1 hj.2]
      norm_num
    · refine ⟨0, Finset.mem_range.mpr (by omega), ?_⟩
      rw [← Finset.sum_neg_distrib]
      have hone : ∀ j ∈ Finset.Ico (0 + 1) data.length,
          (-((if data.getD j 0 > data.getD 0 0 then (1 : ℤ) else 0) +
             (if data.getD j 0 < data.getD 0 0 then (-1 : ℤ) else 0))) = 1 := by
        intro j hj
        rw [Finset.mem_Ico] at hj
        rw [hterm 0 (by omega) j hj.1 hj.2]
        norm_num
      rw [Finset.sum_congr rfl hone]
      simp only [Finset.sum_const, Nat.card_Ico, nsmul_eq_mul, mul_one]
      omega
  omega

/-- On a constant list both comparisons of the Mann-Kendall loop body fail,
so the statistic is zero. -/
lemma mkS_zero_of_const (data : List ℚ) (h : ∀ x ∈ data, x = data.headD 0) :
    mkS data = 0 := by
  unfold mkS
  refine Finset.sum_eq_zero fun i hi => Finset.sum_eq_zero fun j hj => ?_
  rw [Finset.mem_range] at hi
  rw [Finset.mem_Ico] at hj
  have hmi : data.getD i 0 ∈ data := by
    rw [List.getD_eq_getElem data 0 hi]; exact List.getElem_mem ..
  have hmj : data.getD j 0 ∈ data := by
    rw [List.getD_eq_getElem data 0 hj.2]; exact List.getElem_mem ..
  have heq : data.getD j 0 = data.getD i 0 := by rw [h _ hmi, h _ hmj]
  rw [heq]
  simp

/-! ### C3: Mann-Kendall -/

/-- C3: `calculateMannKendall` returns the increasing verdict iff the signed
pairwise count `mkS` is positive, the decreasing verdict iff it is negative,
and the stable verdict iff it is zero; in particular a strictly increasing
sequence of length at least 2 yields increasing, a strictly decreasing one
yields decreasing, and a constant sequence yields stable. -/
theorem mannKendall_spec (data : List ℚ) :
    (calculateMannKendall data = .increasing ↔ 0 < mkS data) ∧
    (calculateMannKendall data = .decreasing ↔ mkS data < 0) ∧
    (calculateMannKendall data = .stable ↔ mkS data = 0) ∧
    (2 ≤ data.length → data.Pairwise (· < ·) → calculateMannKendall data = .increasing) ∧
    (2 ≤ data.length → data.Pairwise (· > ·) → calculateMannKendall data = .decreasing) ∧
    ((∀ x ∈ data, x = data.headD 0) → calculateMannKendall data = .stable) := by
  have htri : (calculateMannKendall data = .increasing ↔ 0 < mkS data) ∧
      (calculateMannKendall data = .decreasing ↔ mkS data < 0) ∧
      (calculateMannKendall data = .stable ↔ mkS data = 0) := by
    unfold calculateMannKendall
    split_ifs with h1 h2 <;>
      refine ⟨?_, ?_, ?_⟩ <;> simp_all <;> omega
  refine ⟨htri.1, htri.2.1, htri.2.2, ?_, ?_, ?_⟩
  · intro hlen hsorted
    exact htri.1.mpr (mkS_pos_of_sorted data hlen hsorted)
  · intro hlen hsorted
    exact htri.2.1.mpr (mkS_neg_of_sorted data hlen hsorted)
  · intro hconst
    exact htri.2.2.mpr (mkS_zero_of_const data hconst)

/-- Witness for C3 at the specification's example `[1, 2, 3, 4]`. -/
theorem mannKendall_spec_witness :
    2 ≤ ([1, 2, 3, 4] : List ℚ).length ∧
      ([1, 2, 3, 4] : List ℚ).Pairwise (· < ·) ∧
      calculateMannKendall [1, 2, 3, 4] = .increasing :=
  ⟨by decide, by decide,
    (mannKendall_spec [1, 2, 3, 4]).2.2.2.1 (by decide) (by decide)⟩

/-! ### C4: control limits -/

/-- Arithmetic mean, stated from the specification's words. -/
noncomputable def specMean (data : List ℝ) : ℝ := data.sum / (data.length : ℝ)

/-- Population standard deviation (divisor `n`, not `n - 1`), stated from the
specification's words. -/
noncomputable def specSigma (data : List ℝ) : ℝ :=
  Real.sqrt ((data.map fun x => (x - specMean data) ^ 2).sum / (data.length : ℝ))

/-- C4: for nonempty input `calculateControlLimits` returns the arithmetic
mean, `ucl = mean + 3σ` and `lcl = max 0 (mean - 3σ)` with `σ` the population
standard deviation (divisor `n`); the empty input returns `⟨0, 0, 0⟩` without
dividing by zero. -/
theorem controlLimits_spec (data : List ℝ) (h : data ≠ []) :
    calculateControlLimits data =
      ⟨specMean data, specMean data + 3 * specSigma data,
        max 0 (specMean data - 3 * specSigma data)⟩ ∧
    calculateControlLimits [] = ⟨0, 0, 0⟩ := by
  constructor
  · have hlen : ¬data.length = 0 := by simpa using h
    simp only [calculateControlLimits, hlen, if_false, specMean, specSigma,
      ← List.sum_eq_foldl]
  · rfl

/-- Witness for C4 at the specification's example
`[2, 4, 4, 4, 5, 5, 7, 9]`, whose limits are `mean = 5`, `ucl = 11`,
`lcl = 0`. -/
theorem controlLimits_spec_witness :
    ([2, 4, 4, 4, 5, 5, 7, 9] : List ℝ) ≠ [] ∧
      calculateControlLimits [2, 4, 4, 4, 5, 5, 7, 9] = ⟨5, 11, 0⟩ := by
  have h : ([2, 4, 4, 4, 5, 5, 7, 9] : List ℝ) ≠ [] := by simp
  refine ⟨h, ?_⟩
  rw [(controlLimits_spec [2, 4, 4, 4, 5, 5, 7, 9] h).1]
  have hm : specMean [2, 4, 4, 4, 5, 5, 7, 9] = 5 := by
    norm_num [specMean]
  have hs : specSigma [2, 4, 4, 4, 5, 5, 7, 9] = 2 := by
    unfold specSigma
    rw [hm]
    norm_num
    rw [show (4 : ℝ) = 2 ^ 2 by norm_num, Real.sqrt_sq (by norm_num)]
  rw [hm, hs]
  simp only [ControlLimits.mk.injEq]
  norm_num

/-! ### C5, C6: EWMA -/

/-- C5: for every numeric sequence and smoothing factor `lambda ∈ (0, 1]`,
`calculateEWMA` returns a sequence of the same length whose first element is
the first input value, whose element at each position `i ≥ 1` is
`lambda * input[i] + (1 - lambda) * output[i-1]`, and the empty input yields
the empty output. -/
theorem ewma_spec (data : List ℚ) (lambda : ℚ) (h0 : 0 < lambda) (h1 : lambda ≤ 1) :
    (calculateEWMA data lambda).length = data.length ∧
    (data ≠ [] → (calculateEWMA data lambda).headD 0 = data.headD 0) ∧
    (∀ i, 1 ≤ i → i < data.length →
      (calculateEWMA data lambda).getD i 0 =
        lambda * data.getD i 0 + (1 - lambda) * (calculateEWMA data lambda).getD (i - 1) 0) ∧
    (data = [] → calculateEWMA data lambda = []) := by
  rcases data with _ | ⟨x, xs⟩
  · exact ⟨rfl, fun h => absurd rfl h, fun i h1i h2i => by simp at h2i, fun _ => rfl⟩
  · refine ⟨by simp [calculateEWMA, ewmaAux_length], fun _ => rfl, ?_, fun h => by simp at h⟩
    intro i hi1 hi2
    obtain ⟨k, rfl⟩ : ∃ k, i = k + 1 := ⟨i - 1, by omega⟩
    have hk : k < xs.length := by simpa using hi2
    simp only [calculateEWMA, List.getD_cons_succ]
    rw [ewmaAux_getD lambda xs x k hk]
    cases k with
    | zero => simp
    | succ k2 => simp [List.getD_cons_succ]

/-- Witness for C5 at the specification's own example `data = [10, 20]`,
`lambda = 0.3`. -/
theorem ewma_spec_witness :
    0 < (3 : ℚ) / 10 ∧ (3 : ℚ) / 10 ≤ 1 ∧
      ((calculateEWMA [10, 20] ((3 : ℚ) / 10)).length = ([10, 20] : List ℚ).length ∧
       (([10, 20] : List ℚ) ≠ [] →
         (calculateEWMA [10, 20] ((3 : ℚ) / 10)).headD 0 = ([10, 20] : List ℚ).headD 0) ∧
       (∀ i, 1 ≤ i → i < ([10, 20] : List ℚ).length →
         (calculateEWMA [10, 20] ((3 : ℚ) / 10)).getD i 0 =
           (3 : ℚ) / 10 * ([10, 20] : List ℚ).getD i 0 +
             (1 - (3 : ℚ) / 10) * (calculateEWMA [10, 20] ((3 : ℚ) / 10)).getD (i - 1) 0) ∧
       (([10, 20] : List ℚ) = [] → calculateEWMA [10, 20] ((3 : ℚ) / 10) = [])) :=
  ⟨by norm_num, by norm_num, ewma_spec [10, 20] (3 / 10) (by norm_num) (by norm_num)⟩

/-- C6: `calculateEWMA` with `lambda = 1` is the identity on its input, so
feeding the EWMA output back through itself with `lambda = 1` returns the
original sequence unchanged. -/
theorem ewma_lambda_one_identity (data : List ℚ) :
    calculateEWMA (calculateEWMA data 1) 1 = data ∧ calculateEWMA data 1 = data := by
  have h : ∀ l : List ℚ, calculateEWMA l 1 = l := by
    intro l
    cases l with
    | nil => rfl
    | cons x xs => simp [calculateEWMA, ewmaAux_one]
  exact ⟨by rw [h, h], h data⟩

/-! ### C7: Pettitt short input -/

/-- C7: `findPettittChangePoint` returns `none` whenever the data sequence
has fewer than 4 elements, regardless of its content. -/
theorem pettitt_short_null (data : List ℚ) (dates : List String) (h : data.length < 4) :
    findPettittChangePoint data dates = none := by
  simp [findPettittChangePoint, h]

/-- Witness for C7 at a concrete 3-element input. -/
theorem pettitt_short_null_witness :
    ([5, 6, 7] : List ℚ).length < 4 ∧
      findPettittChangePoint [5, 6, 7] ["a", "b", "c"] = none :=
  ⟨by decide, pettitt_short_null [5, 6, 7] ["a", "b", "c"] (by decide)⟩

/-! ### C8: degenerate clustering -/

/-- C8: when a period has strictly fewer samples than the requested cluster
count, every sample is assigned the lowest-severity label (palette index 0)
and all other fields are left unchanged. -/
theorem cluster_degenerate (samples : List WaterSample) (count : ℕ) (algo : ClusterAlgo)
    (labels : List String) (h : samples.length < count) :
    clusterDataPerPeriod samples count algo labels =
      samples.map fun s => { s with cluster := some (labels.getD 0 "") } := by
  simp [clusterDataPerPeriod, h]

/-- Witness for C8: one sample, three requested clusters. -/
theorem cluster_degenerate_witness :
    ([⟨"p1", 100, 20, "t1", none, none, none⟩] : List WaterSample).length < 3 ∧
      clusterDataPerPeriod [⟨"p1", 100, 20, "t1", none, none, none⟩] 3 .simple
          ["excellent", "good", "fair"]
        = [⟨"p1", 100, 20, "t1", none, some "excellent", none⟩] := by
  refine ⟨by decide, ?_⟩
  have h := cluster_degenerate [⟨"p1", 100, 20, "t1", none, none, none⟩] 3 .simple
    ["excellent", "good", "fair"] (by decide)
  simpa using h

/-! ### C9: clustering determinism -/

/-- C9: the k-means clustering is deterministic — two runs on equal sample
lists with equal cluster counts produce equal cluster labels for every
sample (centroids are seeded from the first `k` samples by index and exactly
10 fixed iterations are run; no randomness enters the computation). -/
theorem kmeans_deterministic (s₁ s₂ : List WaterSample) (k₁ k₂ : ℕ) (labels : List String)
    (hs : s₁ = s₂) (hk : k₁ = k₂) :
    (clusterDataPerPeriod s₁ k₁ .kmeans labels).map (fun s => s.cluster) =
      (clusterDataPerPeriod s₂ k₂ .kmeans labels).map (fun s => s.cluster) := by
  rw [hs, hk]

/-- Witness for C9 at a concrete two-sample period. -/
theorem kmeans_deterministic_witness :
    ([⟨"a", 1, 2, "t", none, none, none⟩, ⟨"b", 30, 40, "t", none, none, none⟩]
        : List WaterSample) =
      [⟨"a", 1, 2, "t", none, none, none⟩, ⟨"b", 30, 40, "t", none, none, none⟩] ∧
    (clusterDataPerPeriod
        [⟨"a", 1, 2, "t", none, none, none⟩, ⟨"b", 30, 40, "t", none, none, none⟩] 2
        .kmeans ["lo", "hi"]).map (fun s => s.cluster) =
      (clusterDataPerPeriod
        [⟨"a", 1, 2, "t", none, none, none⟩, ⟨"b", 30, 40, "t", none, none, none⟩] 2
        .kmeans ["lo", "hi"]).map (fun s => s.cluster) :=
  ⟨rfl, kmeans_deterministic _ _ 2 2 ["lo", "hi"] rfl rfl⟩

/-! ### C1: Pettitt arg-max behaviour -/

/-- If no candidate split beats the running maximum, the Pettitt loop leaves
its accumulator unchanged. -/
lemma pettittFold_const (data : List ℚ) (ts : List ℕ) (m i : ℤ)
    (h : ∀ t ∈ ts, |uStat data t| ≤ m) :
    ts.foldl (pettittStep data) (m, i) = (m, i) := by
  induction ts with
  | nil => rfl
  | cons t ts ih =>
      have hstep : pettittStep data (m, i) t = (m, i) := by
        unfold pettittStep
        rw [if_neg (not_lt.mpr (h t (List.mem_cons_self ..)))]
      rw [List.foldl_cons, hstep]
      exact ih fun t' ht' => h t' (List.mem_cons_of_mem _ ht')

/-- The Pettitt loop selects the first candidate whose statistic strictly
dominates every earlier candidate and the initial maximum, provided no later
candidate exceeds it. -/
lemma pettittFold_argmax (data : List ℚ) (t₀ : ℕ) :
    ∀ (ts₁ ts₂ : List ℕ) (m i : ℤ),
      (∀ t ∈ ts₁, |uStat data t| < |uStat data t₀|) →
      m < |uStat data t₀| →
      (∀ t ∈ ts₂, |uStat data t| ≤ |uStat data t₀|) →
      (ts₁ ++ t₀ :: ts₂).foldl (pettittStep data) (m, i) =
        (|uStat data t₀|, (t₀ : ℤ)) := by
  intro ts₁
  induction ts₁ with
  | nil =>
      intro ts₂ m i h₁ hm h₂
      rw [List.nil_append, List.foldl_cons]
      have hstep : pettittStep data (m, i) t₀ = (|uStat data t₀|, (t₀ : ℤ)) := by
        unfold pettittStep
        rw [if_pos hm]
      rw [hstep]
      exact pettittFold_const data ts₂ _ _ h₂
  | cons t ts₁ ih =>
      intro ts₂ m i h₁ hm h₂
      rw [List.cons_append, List.foldl_cons]
      have ht : |uStat data t| < |uStat data t₀| := h₁ t (List.mem_cons_self ..)
      by_cases himp : |uStat data t| > m
      · have hstep : pettittStep data (m, i) t = (|uStat data t|, (t : ℤ)) := by
          unfold pettittStep
          rw [if_pos himp]
        rw [hstep]
        exact ih ts₂ _ _ (fun t' ht' => h₁ t' (List.mem_cons_of_mem _ ht')) ht h₂
      · have hstep : pettittStep data (m, i) t = (m, i) := by
          unfold pettittStep
          rw [if_neg himp]
        rw [hstep]
        exact ih ts₂ _ _ (fun t' ht' => h₁ t' (List.mem_cons_of_mem _ ht')) hm h₂

/-- Counterexample to C1 as stated: on the constant sequence `[0, 0, 0, 0]`
(length 4) every `U(t)` is zero, `changePointIdx` never moves off its `-1`
sentinel, and `findPettittChangePoint` returns `none` instead of a date
label, even though `n ≥ 4`. -/
theorem pettitt_argmax_counterexample :
    4 ≤ ([0, 0, 0, 0] : List ℚ).length ∧
      findPettittChangePoint [0, 0, 0, 0] ["d0", "d1", "d2", "d3"] = none := by
  refine ⟨by decide, ?_⟩
  have hg : ∀ k, ([0, 0, 0, 0] : List ℚ).getD k 0 = 0 := by
    intro k
    rcases k with _ | _ | _ | _ | k <;> simp [List.getD]
  have hu : ∀ t, uStat [0, 0, 0, 0] t = 0 := by
    intro t
    unfold uStat
    refine Finset.sum_eq_zero fun i _ => Finset.sum_eq_zero fun j _ => ?_
    rw [hg i, hg j]
    norm_num
  unfold findPettittChangePoint
  rw [if_neg (by norm_num)]
  have hfold : (List.range' 1 (([0, 0, 0, 0] : List ℚ).length - 1)).foldl
      (pettittStep [0, 0, 0, 0]) (0, -1) = (0, -1) := by
    apply pettittFold_const
    intro t _
    rw [hu t]
    simp
  simp only [hfold]
  simp

/-- C1 (amended): for `n ≥ 4` with parallel date labels, if some candidate
split has a nonzero `U` statistic then `findPettittChangePoint` returns the
date label at the first split index maximising `|U(t)|`; if every `U(t)` is
zero (so no candidate strictly exceeds the initial `maxU = 0`) it returns
`none` instead. -/
theorem pettitt_argmax_amended (data : List ℚ) (dates : List String)
    (hn : 4 ≤ data.length) (hd : dates.length = data.length) :
    ((∀ t, 1 ≤ t → t < data.length → uStat data t = 0) →
        findPettittChangePoint data dates = none) ∧
    ((∃ t, 1 ≤ t ∧ t < data.length ∧ uStat data t ≠ 0) →
      ∃ t₀, 1 ≤ t₀ ∧ t₀ < data.length ∧
        findPettittChangePoint data dates = some (dates.getD t₀ "") ∧
        (∀ t, 1 ≤ t → t < data.length → |uStat data t| ≤ |uStat data t₀|) ∧
        (∀ t, 1 ≤ t → t < t₀ → |uStat data t| < |uStat data t₀|)) := by
  constructor
  · intro hz
    unfold findPettittChangePoint
    rw [if_neg (by omega : ¬(data.length < 4))]
    have hfold : (List.range' 1 (data.length - 1)).foldl (pettittStep data) (0, -1) =
        (0, -1) := by
      apply pettittFold_const
      intro t ht
      rw [List.mem_range'_1] at ht
      rw [hz t ht.1 (by omega)]
      simp
    simp only [hfold]
    simp
  · intro hex
    classical
    have hex2 : ∃ t, t < data.length ∧ 1 ≤ t ∧
        ∀ t', 1 ≤ t' → t' < data.length → |uStat data t'| ≤ |uStat data t| := by
      obtain ⟨b, hb, hball⟩ := Finset.exists_max_image (Finset.Ico 1 data.length)
        (fun t => |uStat data t|) ⟨1, Finset.mem_Ico.mpr ⟨le_refl 1, by omega⟩⟩
      rw [Finset.mem_Ico] at hb
      exact ⟨b, hb.2, hb.1, fun t' h1 h2 => hball t' (Finset.mem_Ico.mpr ⟨h1, h2⟩)⟩
    set t₀ := Nat.find hex2 with ht₀def
    obtain ⟨ht₀n, ht₀1, hmax⟩ := Nat.find_spec hex2
    have hpos : 0 < |uStat data t₀| := by
      obtain ⟨te, hte1, hte2, hteu⟩ := hex
      exact lt_of_lt_of_le (abs_pos.mpr hteu) (hmax te hte1 hte2)
    have hstrict : ∀ t, 1 ≤ t → t < t₀ → |uStat data t| < |uStat data t₀| := by
      intro t h1t htt0
      have hnott := Nat.find_min hex2 htt0
      push_neg at hnott
      obtain ⟨t', h1', h2', hlt'⟩ := hnott (by omega) h1t
      exact hlt'.trans_le (hmax t' h1' h2')
    have hsplit : List.range' 1 (data.length - 1) =
        List.range' 1 (t₀ - 1) ++ t₀ :: List.range' (t₀ + 1) (data.length - t₀ - 1) := by
      have h2 : t₀ :: List.range' (t₀ + 1) (data.length - t₀ - 1) =
          List.range' t₀ (data.length - t₀) := by
        have e0 : data.length - t₀ = (data.length - t₀ - 1) + 1 := by omega
        rw [e0, List.range'_succ]
        simp
      rw [h2]
      have h3 := List.range'_append 1 (t₀ - 1) (data.length - t₀) 1
      simp only [one_mul] at h3
      have e1 : 1 + (t₀ - 1) = t₀ := by omega
      have e2 : data.length - t₀ + (t₀ - 1) = data.length - 1 := by omega
      rw [e1, e2] at h3
      exact h3.symm
    have hfold : (List.range' 1 (data.length - 1)).foldl (pettittStep data) (0, -1) =
        (|uStat data t₀|, (t₀ : ℤ)) := by
      rw [hsplit]
      apply pettittFold_argmax data t₀
      · intro t ht
        rw [List.mem_range'_1] at ht
        exact hstrict t ht.1 (by omega)
      · exact hpos
      · intro t ht
        rw [List.mem_range'_1] at ht
        exact hmax t (by omega) (by omega)
    refine ⟨t₀, ht₀1, ht₀n, ?_, hmax, hstrict⟩
    unfold findPettittChangePoint
    rw [if_neg (by omega : ¬(data.length < 4))]
    simp only [hfold]
    rw [if_pos (by omega : ((|uStat data t₀|, (t₀ : ℤ)).2 ≠ -1))]
    simp

/-- Witness for the amended C1 at the specification's example data
`[1, 2, 10, 11]` with dates `[d0, d1, d2, d3]` (the biggest step is at split
index 2, where `U(2) = -4`). -/
theorem pettitt_argmax_amended_witness :
    4 ≤ ([1, 2, 10, 11] : List ℚ).length ∧
      ["d0", "d1", "d2", "d3"].length = ([1, 2, 10, 11] : List ℚ).length ∧
      (∃ t₀, 1 ≤ t₀ ∧ t₀ < ([1, 2, 10, 11] : List ℚ).length ∧
        findPettittChangePoint [1, 2, 10, 11] ["d0", "d1", "d2", "d3"] =
          some (["d0", "d1", "d2", "d3"].getD t₀ "") ∧
        (∀ t, 1 ≤ t → t < ([1, 2, 10, 11] : List ℚ).length →
          |uStat [1, 2, 10, 11] t| ≤ |uStat [1, 2, 10, 11] t₀|) ∧
        (∀ t, 1 ≤ t → t < t₀ →
          |uStat [1, 2, 10, 11] t| < |uStat [1, 2, 10, 11] t₀|)) := by
  refine ⟨by decide, by decide, ?_⟩
  refine (pettitt_argmax_amended [1, 2, 10, 11] ["d0", "d1", "d2", "d3"]
    (by decide) (by decide)).2 ⟨2, by norm_num, by norm_num, ?_⟩
  have : uStat [1, 2, 10, 11] 2 = -4 := by
    unfold uStat
    simp [Finset.sum_range_succ, Finset.sum_Ico_eq_sum_range, List.getD]
    norm_num
  rw [this]
  norm_num

/-! ### C2: clustering ordering invariant -/

/-- One k-means iteration keeps the number of centroids. -/
lemma kmeansStep_length (samples : List WaterSample) (cs : List Centroid) :
    (kmeansStep samples cs).length = cs.length := by
  simp [kmeansStep]

/-- With at least `count` samples, the k-means path produces exactly `count`
centroids. -/
lemma kmeansCentroids_length (samples : List WaterSample) (count : ℕ)
    (h : count ≤ samples.length) : (kmeansCentroids samples count).length = count := by
  unfold kmeansCentroids
  have hiter : ∀ (n : ℕ) (cs : List Centroid),
      ((kmeansStep samples)^[n] cs).length = cs.length := by
    intro n
    induction n with
    | zero => intro cs; rfl
    | succ k ih =>
        intro cs
        rw [Function.iterate_succ_apply, ih, kmeansStep_length]
  rw [hiter]
  simp [h]

/-- Either algorithm produces exactly `count` centroids when the period has
at least `count` samples. -/
lemma baseCentroids_length (samples : List WaterSample) (count : ℕ) (algo : ClusterAlgo)
    (h : count ≤ samples.length) : (baseCentroids samples count algo).length = count := by
  cases algo with
  | simple =>
      show (simpleCentroids samples count).length = count
      unfold simpleCentroids
      rw [List.length_map, List.length_range]
  | kmeans => exact kmeansCentroids_length samples count h

instance : IsTotal Centroid fun a b => centroidKey a ≤ centroidKey b :=
  ⟨fun _ _ => le_total _ _⟩

instance : IsTrans Centroid fun a b => centroidKey a ≤ centroidKey b :=
  ⟨fun _ _ _ => le_trans⟩

/-- Sorting the centroids keeps their number. -/
lemma sortCentroids_length (cs : List Centroid) : (sortCentroids cs).length = cs.length :=
  (List.perm_insertionSort _ cs).length_eq

/-- The sorted centroid list is ascending in the `(ec + no3)` key. -/
lemma sortCentroids_sorted (cs : List Centroid) :
    (sortCentroids cs).Sorted fun a b => centroidKey a ≤ centroidKey b :=
  List.sorted_insertionSort _ cs

/-- In a key-sorted centroid list, the element at index 0 has the least key. -/
lemma sorted_head_min (l : List Centroid)
    (hs : l.Sorted fun a b => centroidKey a ≤ centroidKey b) :
    ∀ c ∈ l, centroidKey (l.getD 0 ⟨0, 0⟩) ≤ centroidKey c := by
  intro c hc
  cases l with
  | nil => simp at hc
  | cons x t =>
      rcases List.mem_cons.mp hc with rfl | hmem
      · simp
      · exact List.rel_of_sorted_cons hs _ hmem

/-- Characterisation of the nearest-centroid scan tail: either no remaining
centroid is strictly closer than the running minimum `m` and the running best
index is returned, or the scan returns the offset of the first centroid
achieving the least distance strictly below `m`. -/
lemma nearestAux_spec (s : WaterSample) (cs : List Centroid) :
    ∀ (m : ℝ) (cur best : ℕ),
      (nearestAux s cs m cur best = best ∧ ∀ c ∈ cs, m ≤ sampleDist s c) ∨
      (∃ j, j < cs.length ∧ nearestAux s cs m cur best = cur + j ∧
        sampleDist s (cs.getD j ⟨0, 0⟩) < m ∧
        (∀ i, i < j → sampleDist s (cs.getD j ⟨0, 0⟩) < sampleDist s (cs.getD i ⟨0, 0⟩)) ∧
        (∀ i, i < cs.length → j ≤ i →
          sampleDist s (cs.getD j ⟨0, 0⟩) ≤ sampleDist s (cs.getD i ⟨0, 0⟩))) := by
  induction cs with
  | nil =>
      intro m cur best
      left
      exact ⟨rfl, by simp⟩
  | cons c cs ih =>
      intro m cur best
      by_cases hc : sampleDist s c < m
      · have hstep : nearestAux s (c :: cs) m cur best =
            nearestAux s cs (sampleDist s c) (cur + 1) cur := by
          simp only [nearestAux, if_pos hc]
        rcases ih (sampleDist s c) (cur + 1) cur with ⟨heq, hall⟩ | ⟨j, hj, heq, hlt, hprev, hsuf⟩
        · right
          refine ⟨0, by simp, by rw [hstep, heq]; omega, by simpa using hc,
            by intro i hi; simp at hi, ?_⟩
          intro i hilen _
          cases i with
          | zero => simp
          | succ k =>
              simp only [List.getD_cons_zero, List.getD_cons_succ]
              have hk : k < cs.length := by simpa using hilen
              refine hall _ ?_
              rw [List.getD_eq_getElem cs _ hk]
              exact List.getElem_mem ..
        · right
          refine ⟨j + 1, by simpa using hj, by rw [hstep, heq]; omega, ?_, ?_, ?_⟩
          · simpa only [List.getD_cons_succ] using hlt.trans hc
          · intro i hi
            cases i with
            | zero => simpa only [List.getD_cons_succ, List.getD_cons_zero] using hlt
            | succ k =>
                simp only [List.getD_cons_succ]
                exact hprev k (by omega)
          · intro i hilen hji
            cases i with
            | zero => omega
            | succ k =>
                simp only [List.getD_cons_succ]
                exact hsuf k (by simpa using hilen) (by omega)
      · have hstep : nearestAux s (c :: cs) m cur best =
            nearestAux s cs m (cur + 1) best := by
          simp only [nearestAux, if_neg hc]
        rcases ih m (cur + 1) best with ⟨heq, hall⟩ | ⟨j, hj, heq, hlt, hprev, hsuf⟩
        · left
          refine ⟨by rw [hstep, heq], ?_⟩
          intro x hx
          rcases List.mem_cons.mp hx with rfl | hmem
          · exact le_of_not_lt hc
          · exact hall _ hmem
        · right
          refine ⟨j + 1, by simpa using hj, by rw [hstep, heq]; omega, ?_, ?_, ?_⟩
          · simpa only [List.getD_cons_succ] using hlt
          · intro i hi
            cases i with
            | zero =>
                simp only [List.getD_cons_succ, List.getD_cons_zero]
                exact hlt.trans_le (le_of_not_lt hc)
            | succ k =>
                simp only [List.getD_cons_succ]
                exact hprev k (by omega)
          · intro i hilen hji
            cases i with
            | zero => omega
            | succ k =>
                simp only [List.getD_cons_succ]
                exact hsuf k (by simpa using hilen) (by omega)

/-- The nearest-centroid index is in range and realises the minimum Euclidean
distance over the centroid list (ties resolved towards the lower index, as
the source's strict `d < minDist` comparison does). -/
lemma nearestIdx_argmin (s : WaterSample) (cs : List Centroid) (hne : cs ≠ []) :
    nearestIdx s cs < cs.length ∧
      ∀ j, j < cs.length →
        sampleDist s (cs.getD (nearestIdx s cs) ⟨0, 0⟩) ≤ sampleDist s (cs.getD j ⟨0, 0⟩) := by
  rcases cs with _ | ⟨c, rest⟩
  · exact absurd rfl hne
  · have hunfold : nearestIdx s (c :: rest) = nearestAux s rest (sampleDist s c) 1 0 := rfl
    rcases nearestAux_spec s rest (sampleDist s c) 1 0 with ⟨heq, hall⟩ | ⟨j, hj, heq, hlt, hprev, hsuf⟩
    · have hidx : nearestIdx s (c :: rest) = 0 := by rw [hunfold, heq]
      rw [hidx]
      refine ⟨by simp, ?_⟩
      intro i hilen
      cases i with
      | zero => simp
      | succ k =>
          simp only [List.getD_cons_zero, List.getD_cons_succ]
          have hk : k < rest.length := by simpa using hilen
          refine hall _ ?_
          rw [List.getD_eq_getElem rest _ hk]
          exact List.getElem_mem ..
    · have hidx : nearestIdx s (c :: rest) = j + 1 := by rw [hunfold, heq]; omega
      rw [hidx]
      refine ⟨by simp; omega, ?_⟩
      intro i hilen
      simp only [List.getD_cons_succ]
      cases i with
      | zero =>
          simp only [List.getD_cons_zero]
          exact hlt.le
      | succ k =>
          simp only [List.getD_cons_succ]
          rcases lt_or_ge k j with hkj | hkj
          · exact (hprev k hkj).le
          · exact hsuf k (by simpa using hilen) hkj

/-- C2: on a period with at least `k ≥ 1` samples, the centroids (from either
algorithm) are sorted ascending by the `conductivity + nitrate` key before
labeling, the centroid at cluster index 0 has the least key (hence carries
the lowest-severity label), and every sample is relabelled with the palette
entry of its nearest sorted centroid under Euclidean distance. -/
theorem cluster_order_spec (samples : List WaterSample) (count : ℕ) (algo : ClusterAlgo)
    (labels : List String) (hc : 0 < count) (hn : count ≤ samples.length) :
    ((sortCentroids (baseCentroids samples count algo)).Sorted
        fun a b => centroidKey a ≤ centroidKey b) ∧
    (∀ c ∈ sortCentroids (baseCentroids samples count algo),
        centroidKey ((sortCentroids (baseCentroids samples count algo)).getD 0 ⟨0, 0⟩) ≤
          centroidKey c) ∧
    (clusterDataPerPeriod samples count algo labels =
      samples.map fun s =>
        { s with cluster := some (labels.getD
            (nearestIdx s (sortCentroids (baseCentroids samples count algo))) "") }) ∧
    (∀ s : WaterSample,
        nearestIdx s (sortCentroids (baseCentroids samples count algo)) < count ∧
        ∀ j, j < count →
          sampleDist s ((sortCentroids (baseCentroids samples count algo)).getD
              (nearestIdx s (sortCentroids (baseCentroids samples count algo))) ⟨0, 0⟩) ≤
            sampleDist s ((sortCentroids (baseCentroids samples count algo)).getD j ⟨0, 0⟩)) := by
  have hlen : (sortCentroids (baseCentroids samples count algo)).length = count := by
    rw [sortCentroids_length, baseCentroids_length samples count algo hn]
  have hne : sortCentroids (baseCentroids samples count algo) ≠ [] := by
    intro hnil
    rw [hnil] at hlen
    simp at hlen
    omega
  refine ⟨sortCentroids_sorted _, sorted_head_min _ (sortCentroids_sorted _), ?_, ?_⟩
  · simp only [clusterDataPerPeriod, if_neg (Nat.not_lt.mpr hn)]
  · intro s
    have h := nearestIdx_argmin s _ hne
    rw [hlen] at h
    exact h

/-- Witness for C2 at a concrete two-sample period with two clusters. -/
theorem cluster_order_spec_witness :
    0 < 2 ∧
    2 ≤ ([⟨"a", 1, 2, "t", none, none, none⟩, ⟨"b", 30, 40, "t", none, none, none⟩]
          : List WaterSample).length ∧
    (((sortCentroids (baseCentroids
          [⟨"a", 1, 2, "t", none, none, none⟩, ⟨"b", 30, 40, "t", none, none, none⟩] 2
          .simple)).Sorted fun a b => centroidKey a ≤ centroidKey b) ∧
     (∀ c ∈ sortCentroids (baseCentroids
          [⟨"a", 1, 2, "t", none, none, none⟩, ⟨"b", 30, 40, "t", none, none, none⟩] 2
          .simple),
        centroidKey ((sortCentroids (baseCentroids
            [⟨"a", 1, 2, "t", none, none, none⟩, ⟨"b", 30, 40, "t", none, none, none⟩] 2
            .simple)).getD 0 ⟨0, 0⟩) ≤ centroidKey c) ∧
     (clusterDataPerPeriod
          [⟨"a", 1, 2, "t", none, none, none⟩, ⟨"b", 30, 40, "t", none, none, none⟩] 2
          .simple ["lo", "hi"] =
        ([⟨"a", 1, 2, "t", none, none, none⟩, ⟨"b", 30, 40, "t", none, none, none⟩]
            : List WaterSample).map fun s =>
          { s with cluster := some (["lo", "hi"].getD
              (nearestIdx s (sortCentroids (baseCentroids
                [⟨"a", 1, 2, "t", none, none, none⟩, ⟨"b", 30, 40, "t", none, none, none⟩] 2
                .simple))) "") }) ∧
     (∀ s : WaterSample,
        nearestIdx s (sortCentroids (baseCentroids
            [⟨"a", 1, 2, "t", none, none, none⟩, ⟨"b", 30, 40, "t", none, none, none⟩] 2
            .simple)) < 2 ∧
        ∀ j, j < 2 →
          sampleDist s ((sortCentroids (baseCentroids
              [⟨"a", 1, 2, "t", none, none, none⟩, ⟨"b", 30, 40, "t", none, none, none⟩] 2
              .simple)).getD
                (nearestIdx s (sortCentroids (baseCentroids
                  [⟨"a", 1, 2, "t", none, none, none⟩, ⟨"b", 30, 40, "t", none, none, none⟩] 2
                  .simple))) ⟨0, 0⟩) ≤
            sampleDist s ((sortCentroids (baseCentroids
              [⟨"a", 1, 2, "t", none, none, none⟩, ⟨"b", 30, 40, "t", none, none, none⟩] 2
              .simple)).getD j ⟨0, 0⟩))) :=
  ⟨by decide, by decide,
    cluster_order_spec
      [⟨"a", 1, 2, "t", none, none, none⟩, ⟨"b", 30, 40, "t", none, none, none⟩] 2
      .simple ["lo", "hi"] (by decide) (by decide)⟩

/-! ### C10: volatility score -/

/-- Every normalised volatility step is a square root, hence non-negative. -/
lemma volStep_nonneg (meanEC meanNO3 : ℝ) (a b : HistEntry) :
    0 ≤ volStep meanEC meanNO3 a b :=
  Real.sqrt_nonneg _

/-- The accumulated change of a station history is a sum of non-negative
steps. -/
lemma totalChange_nonneg (meanEC meanNO3 : ℝ) (h : List HistEntry) :
    0 ≤ totalChange meanEC meanNO3 h := by
  induction h with
  | nil => simp [totalChange]
  | cons a t ih =>
      cases t with
      | nil => simp [totalChange]
      | cons b rest =>
          have := volStep_nonneg meanEC meanNO3 a b
          simp only [totalChange]
          positivity

/-- A history whose consecutive entries have equal measurements contributes a
zero step at every position. -/
lemma totalChange_zero (meanEC meanNO3 : ℝ) (h : List HistEntry)
    (hch : h.Chain' (fun a b => a.ec = b.ec ∧ a.no3 = b.no3 ∧ a.cluster = b.cluster)) :
    totalChange meanEC meanNO3 h = 0 := by
  induction h with
  | nil => rfl
  | cons a t ih =>
      cases t with
      | nil => rfl
      | cons b rest =>
          rw [List.chain'_cons] at hch
          have hstep : volStep meanEC meanNO3 a b = 0 := by
            simp [volStep, hch.1.1, hch.1.2.1]
          simp [totalChange, hstep, ih hch.2]

/-- A history whose consecutive entries carry equal cluster labels has no
label jumps. -/
lemma clusterJumps_zero (h : List HistEntry)
    (hch : h.Chain' (fun a b => a.ec = b.ec ∧ a.no3 = b.no3 ∧ a.cluster = b.cluster)) :
    clusterJumps h = 0 := by
  induction h with
  | nil => rfl
  | cons a t ih =>
      cases t with
      | nil => rfl
      | cons b rest =>
          rw [List.chain'_cons] at hch
          simp [clusterJumps, hch.1.2.2, ih hch.2]

/-- C10: the per-station volatility score is non-negative, and it is zero for
a station whose conductivity and nitrate values are identical across all its
periods and whose cluster label never changes. -/
theorem volatility_score_spec (meanEC meanNO3 : ℝ) (history : List HistEntry) :
    0 ≤ stationScore meanEC meanNO3 history ∧
    (history.Chain' (fun a b => a.ec = b.ec ∧ a.no3 = b.no3 ∧ a.cluster = b.cluster) →
      stationScore meanEC meanNO3 history = 0) := by
  constructor
  · unfold stationScore
    have htc := totalChange_nonneg meanEC meanNO3 history
    have hjump : (0 : ℝ) ≤ (clusterJumps history : ℝ) * 0.2 := by positivity
    split
    · have hlen : (0 : ℝ) < (history.length : ℝ) - 1 := by
        have : 1 < history.length := by assumption
        have : (1 : ℝ) < (history.length : ℝ) := by exact_mod_cast this
        linarith
      have : 0 ≤ totalChange meanEC meanNO3 history / ((history.length : ℝ) - 1) :=
        div_nonneg htc hlen.le
      linarith
    · linarith
  · intro hch
    unfold stationScore
    rw [totalChange_zero meanEC meanNO3 history hch, clusterJumps_zero history hch]
    simp

/-- Witness for C10 at a constant two-period history. -/
theorem volatility_score_spec_witness :
    ([⟨1, 2, "a"⟩, ⟨1, 2, "a"⟩] : List HistEntry).Chain'
        (fun a b => a.ec = b.ec ∧ a.no3 = b.no3 ∧ a.cluster = b.cluster) ∧
      stationScore 5 7 [⟨1, 2, "a"⟩, ⟨1, 2, "a"⟩] = 0 := by
  have hch : ([⟨1, 2, "a"⟩, ⟨1, 2, "a"⟩] : List HistEntry).Chain'
      (fun a b => a.ec = b.ec ∧ a.no3 = b.no3 ∧ a.cluster = b.cluster) := by
    simp [List.chain'_cons]
  exact ⟨hch, (volatility_score_spec 5 7 _).2 hch⟩

end AquaTrack
